import Mathlib

/-!
Verification development for the `superquick` file-search utility
(`superquick/utils.py` and `superquick/cli.py`).

The Python source is shallowly embedded:
* the directory tree is modelled by the inductive type `FS`
  (a directory carries a `readable` flag: an unreadable directory is one
  whose `os.scandir` raises `PermissionError`/`OSError`; a file carries
  an optional `FileStat`, `none` meaning that `path.stat()` fails);
* `_walk_files` (utils.py, lines 37-69) becomes `walk_files`, an explicit
  work-list loop mirroring the Python `stack` (`stack.pop()` pops the top,
  modelled as the head of the list; appended children are therefore pushed
  reversed in front);
* the filter/stat/collect loop of `search` (cli.py, lines 135-173) becomes
  `searchScan`, sorting (lines 176-182) becomes `sortRows`, the limit
  (lines 185-186) becomes `applyLimit`;
* `parse_size` (utils.py) models `float(number_str)` faithfully: the
  decimal literal's exact rational value is rounded to the nearest IEEE-754
  binary64 value (`pyFloat`: round to nearest, ties to even, with the
  subnormal range and overflow; `int(float('inf'))` raising an uncaught
  `OverflowError` is the `overflow` outcome), and the subsequent
  multiplication by the power-of-two unit multiplier is exact in doubles
  below the overflow threshold; `human_size` carries its running value as
  an exact rational, which coincides with the double computation on every
  property claimed of it (its divisions by 1024 are exact);
* strings are manipulated through their character lists (`String.data`) so
  that the proofs never depend on byte-position internals; character
  classes mirror the regex classes `[0-9]`, `[a-zA-Z]`, `\s` and Python's
  ASCII case mapping (the repository only ever compares ASCII unit and
  extension strings).

Symbolic links are not modelled: `entry.is_dir`/`entry.is_file` on plain
files and directories do not depend on `follow_symlinks`, and no claim in
scope mentions symlinks.
-/

/-- Character class `[0-9]` of the size regex `_SIZE_RE` (utils.py line 95). -/
def isDig (c : Char) : Bool := 48 ≤ c.toNat && c.toNat ≤ 57

/-- Character class `[a-zA-Z]` of the size regex `_SIZE_RE` (utils.py line 95). -/
def isAl (c : Char) : Bool :=
  (65 ≤ c.toNat && c.toNat ≤ 90) || (97 ≤ c.toNat && c.toNat ≤ 122)

/-- Whitespace class `\s` of the size regex / `str.strip` (ASCII part). -/
def wsp (c : Char) : Bool :=
  c.toNat == 32 || c.toNat == 9 || c.toNat == 10 ||
  c.toNat == 13 || c.toNat == 12 || c.toNat == 11

/-- Python `str.lower`, restricted to its ASCII action (`Char.toLower`
maps `A`-`Z` to `a`-`z` and fixes everything else). -/
def lowerString (s : String) : String := String.mk (s.data.map Char.toLower)

/-- Python `name.startswith(".")` (utils.py line 56). -/
def startsDot (n : String) : Bool :=
  match n.data with
  | [] => false
  | c :: _ => c == '.'

/-- Result of a successful `path.stat()`: the size in bytes and the
already-formatted modification timestamp (the `datetime` formatting is an
external collaborator; the formatted string is carried as data). -/
structure FileStat where
  size : Nat
  mtime : String
deriving DecidableEq

/-- A filesystem tree. `readable = false` on a directory means reading it
(`os.scandir`) raises an `OSError`; `stat = none` on a file means
`path.stat()` raises (file vanished between listing and stat). -/
inductive FS where
  | file (name : String) (stat : Option FileStat)
  | dir (name : String) (readable : Bool) (children : List FS)

/-- Basename of a tree node. -/
def fsName : FS → String
  | .file n _ => n
  | .dir n _ _ => n

mutual
/-- Size measure used for the termination of the work-list loop. -/
def fsSize : FS → Nat
  | .file _ _ => 1
  | .dir _ _ cs => 1 + fsSizeList cs
/-- Total size of a list of trees. -/
def fsSizeList : List FS → Nat
  | [] => 0
  | c :: cs => fsSize c + fsSizeList cs
end

/-- One `os.scandir` batch (utils.py lines 53-67): each child is either
skipped by the hidden-name rule, skipped by the skip set (directories
only), pushed (directories), or yielded (files). Returns the yielded file
paths and the pushed directories, both in scan order. Paths are component
lists relative to the walk root. -/
def scanChildren (ih : Bool) (sk : List String) (p : List String) :
    List FS → List (List String) × List (List String × FS)
  | [] => ([], [])
  | c :: cs =>
    let rest := scanChildren ih sk p cs
    match c with
    | .file n _ =>
      if ih && startsDot n then rest
      else ((p ++ [n]) :: rest.1, rest.2)
    | .dir n _ _ =>
      if ih && startsDot n then rest
      else if n ∈ sk then rest
      else (rest.1, (p ++ [n], c) :: rest.2)

/-- Measure of the pending work list. -/
def stackMeasure (st : List (List String × FS)) : Nat :=
  (st.map fun e => fsSize e.2).sum

theorem fsSize_pos : ∀ e : FS, 0 < fsSize e := by
  intro e
  cases e <;> simp [fsSize]

theorem stackMeasure_nil : stackMeasure [] = 0 := rfl

theorem stackMeasure_cons (x : List String × FS) (st : List (List String × FS)) :
    stackMeasure (x :: st) = fsSize x.2 + stackMeasure st := by
  simp [stackMeasure]

theorem stackMeasure_append (a b : List (List String × FS)) :
    stackMeasure (a ++ b) = stackMeasure a + stackMeasure b := by
  simp [stackMeasure]

theorem stackMeasure_reverse (a : List (List String × FS)) :
    stackMeasure a.reverse = stackMeasure a := by
  simp [stackMeasure, List.sum_reverse]

theorem scanChildren_measure (ih : Bool) (sk : List String) (p : List String) :
    ∀ cs : List FS, stackMeasure (scanChildren ih sk p cs).2 ≤ fsSizeList cs := by
  intro cs
  induction cs with
  | nil => simp [scanChildren, stackMeasure]
  | cons c cs ihcs =>
    cases c with
    | file n st =>
      simp only [scanChildren, fsSizeList]
      split
      · omega
      · simpa using by omega
    | dir n rb cs' =>
      simp only [scanChildren, fsSizeList]
      split
      · omega
      · split
        · omega
        · rw [stackMeasure_cons]
          have h1 : 0 < fsSize (FS.dir n rb cs') := fsSize_pos _
          simp only []
          omega

/-- The iterative walk loop of `_walk_files` (utils.py lines 49-69).
The head of `st` is the top of the Python stack. Popping a file models
`os.scandir` raising `NotADirectoryError` (swallowed, line 68); popping an
unreadable directory models `PermissionError`/`OSError` (swallowed,
line 68); a readable directory has its children scanned, its files
yielded, and its subdirectories pushed (appended in scan order, hence
reversed onto the top of our head-is-top stack). -/
def walkLoop (ih : Bool) (sk : List String) (st : List (List String × FS)) :
    List (List String) :=
  match st with
  | [] => []
  | (_, .file _ _) :: rest => walkLoop ih sk rest
  | (_, .dir _ false _) :: rest => walkLoop ih sk rest
  | (p, .dir _ true cs) :: rest =>
    (scanChildren ih sk p cs).1 ++
      walkLoop ih sk ((scanChildren ih sk p cs).2.reverse ++ rest)
termination_by stackMeasure st
decreasing_by
  · rw [stackMeasure_cons]
    simp [fsSize]
  · rw [stackMeasure_cons]
    simp [fsSize]
  · rw [stackMeasure_append, stackMeasure_reverse, stackMeasure_cons]
    have h := scanChildren_measure ih sk p cs
    simp only [fsSize]
    omega

/-- Embedding of `_walk_files(root, ...)` (utils.py lines 37-69): the list
of yielded file paths, as component lists relative to the walk root. -/
def walk_files (root : FS) (ih : Bool) (sk : List String) : List (List String) :=
  walkLoop ih sk [([], root)]

theorem stackMeasure_eq_zero {st : List (List String × FS)}
    (h : stackMeasure st = 0) : st = [] := by
  cases st with
  | nil => rfl
  | cons x xs =>
    rw [stackMeasure_cons] at h
    have := fsSize_pos x.2
    omega

theorem scanChildren_yield_shape (ih : Bool) (sk : List String) (p : List String) :
    ∀ cs : List FS, ∀ y ∈ (scanChildren ih sk p cs).1, ∃ n, y = p ++ [n] := by
  intro cs
  induction cs with
  | nil => simp [scanChildren]
  | cons c cs ihcs =>
    cases c with
    | file n st =>
      simp only [scanChildren]
      split
      · exact ihcs
      · intro y hy
        rcases List.mem_cons.mp hy with rfl | hy
        · exact ⟨n, rfl⟩
        · exact ihcs y hy
    | dir n rb cs' =>
      simp only [scanChildren]
      split
      · exact ihcs
      · split
        · exact ihcs
        · exact ihcs

theorem scanChildren_push_shape (ih : Bool) (sk : List String) (p : List String) :
    ∀ cs : List FS, ∀ x ∈ (scanChildren ih sk p cs).2,
      ∃ m e, x = (p ++ [m], e) ∧ m ∉ sk := by
  intro cs
  induction cs with
  | nil => simp [scanChildren]
  | cons c cs ihcs =>
    cases c with
    | file n st =>
      simp only [scanChildren]
      split
      · exact ihcs
      · exact ihcs
    | dir n rb cs' =>
      simp only [scanChildren]
      split
      · exact ihcs
      · split
        · exact ihcs
        · intro x hx
          rcases List.mem_cons.mp hx with rfl | hx
          · exact ⟨n, FS.dir n rb cs', rfl, by assumption⟩
          · exact ihcs x hx

theorem scanChildren_yield_mem (ih : Bool) (sk : List String) (p : List String)
    {n : String} {st' : Option FileStat} :
    ∀ cs : List FS, FS.file n st' ∈ cs → ¬(ih = true ∧ startsDot n = true) →
      (p ++ [n]) ∈ (scanChildren ih sk p cs).1 := by
  intro cs
  induction cs with
  | nil => simp
  | cons c cs ihcs =>
    intro hmem hh
    have hcond : ¬((ih && startsDot n) = true) := by
      rw [Bool.and_eq_true]; exact hh
    rw [List.mem_cons] at hmem
    rcases hmem with rfl | hmem
    · simp only [scanChildren, if_neg hcond]
      exact List.mem_cons_self _ _
    · cases c with
      | file n2 st2 =>
        simp only [scanChildren]
        split
        · exact ihcs hmem hh
        · exact List.mem_cons_of_mem _ (ihcs hmem hh)
      | dir n2 rb2 cs2 =>
        simp only [scanChildren]
        split
        · exact ihcs hmem hh
        · split
          · exact ihcs hmem hh
          · exact ihcs hmem hh

theorem scanChildren_push_mem (ih : Bool) (sk : List String) (p : List String)
    {m : String} {rb : Bool} {cs' : List FS} :
    ∀ cs : List FS, FS.dir m rb cs' ∈ cs → ¬(ih = true ∧ startsDot m = true) →
      m ∉ sk → (p ++ [m], FS.dir m rb cs') ∈ (scanChildren ih sk p cs).2 := by
  intro cs
  induction cs with
  | nil => simp
  | cons c cs ihcs =>
    intro hmem hh hns
    have hcond : ¬((ih && startsDot m) = true) := by
      rw [Bool.and_eq_true]; exact hh
    rw [List.mem_cons] at hmem
    rcases hmem with rfl | hmem
    · simp only [scanChildren, if_neg hcond, if_neg hns]
      exact List.mem_cons_self _ _
    · cases c with
      | file n2 st2 =>
        simp only [scanChildren]
        split
        · exact ihcs hmem hh hns
        · exact ihcs hmem hh hns
      | dir n2 rb2 cs2 =>
        simp only [scanChildren]
        split
        · exact ihcs hmem hh hns
        · split
          · exact ihcs hmem hh hns
          · exact List.mem_cons_of_mem _ (ihcs hmem hh hns)

/-- Reachability of a file inside a tree through the walker's descent
policy: every directory on the way is readable, not hidden-suppressed and
not in the skip set, and the file itself is not hidden-suppressed. This is
exactly the condition under which `_walk_files` reaches and yields the
file, irrespective of what happens in any other subtree. -/
inductive ReachFile (ih : Bool) (sk : List String) : FS → List String → String → Prop
  | here {n : String} {cs : List FS} {fn : String} {st : Option FileStat}
      (hmem : FS.file fn st ∈ cs)
      (hh : ¬(ih = true ∧ startsDot fn = true)) :
      ReachFile ih sk (.dir n true cs) [] fn
  | step {n : String} {cs : List FS} {m : String} {rb : Bool} {cs' : List FS}
      {q : List String} {fn : String}
      (hmem : FS.dir m rb cs' ∈ cs)
      (hh : ¬(ih = true ∧ startsDot m = true))
      (hns : m ∉ sk)
      (hr : ReachFile ih sk (.dir m rb cs') q fn) :
      ReachFile ih sk (.dir n true cs) (m :: q) fn

theorem walkLoop_complete (ih : Bool) (sk : List String) :
    ∀ (N : Nat) (st : List (List String × FS)), stackMeasure st ≤ N →
      ∀ (p : List String) (e : FS) (q : List String) (fn : String),
        (p, e) ∈ st → ReachFile ih sk e q fn →
        p ++ (q ++ [fn]) ∈ walkLoop ih sk st := by
  intro N
  induction N with
  | zero =>
    intro st hst p e q fn hmem hr
    have h0 : st = [] := stackMeasure_eq_zero (Nat.le_zero.mp hst)
    subst h0
    simp at hmem
  | succ N IH =>
    intro st hst p e q fn hmem hr
    cases st with
    | nil => simp at hmem
    | cons hd rest =>
      obtain ⟨p₀, e₀⟩ := hd
      cases e₀ with
      | file n st' =>
        simp only [walkLoop]
        rcases List.mem_cons.mp hmem with h | h
        · injection h with h1 h2
          subst h1; subst h2
          cases hr
        · rw [stackMeasure_cons] at hst
          simp only [fsSize] at hst
          exact IH rest (by omega) p e q fn h hr
      | dir n rb cs =>
        cases rb with
        | false =>
          simp only [walkLoop]
          rcases List.mem_cons.mp hmem with h | h
          · injection h with h1 h2
            subst h1; subst h2
            cases hr
          · rw [stackMeasure_cons] at hst
            simp only [fsSize] at hst
            exact IH rest (by omega) p e q fn h hr
        | true =>
          simp only [walkLoop]
          have hmeas : stackMeasure ((scanChildren ih sk p₀ cs).2.reverse ++ rest) ≤ N := by
            rw [stackMeasure_append, stackMeasure_reverse]
            rw [stackMeasure_cons] at hst
            have := scanChildren_measure ih sk p₀ cs
            simp only [fsSize] at hst
            omega
          rcases List.mem_cons.mp hmem with h | h
          · injection h with h1 h2
            subst h1; subst h2
            cases hr with
            | here hmem' hh =>
              apply List.mem_append_left
              simpa using scanChildren_yield_mem ih sk p cs hmem' hh
            | step hmem' hh hns hr' =>
              apply List.mem_append_right
              have hpush := scanChildren_push_mem ih sk p cs hmem' hh hns
              have hmem2 := List.mem_append_left rest (List.mem_reverse.mpr hpush)
              have hres := IH _ hmeas _ _ _ _ hmem2 hr'
              simpa [List.append_assoc] using hres
          · apply List.mem_append_right
            exact IH _ hmeas _ _ _ _ (List.mem_append_right _ h) hr

theorem walkLoop_skip_sound (ih : Bool) (sk : List String) :
    ∀ (N : Nat) (st : List (List String × FS)), stackMeasure st ≤ N →
      (∀ pe ∈ st, ∀ c ∈ pe.1, c ∉ sk) →
      ∀ y ∈ walkLoop ih sk st, ∀ c ∈ y.dropLast, c ∉ sk := by
  intro N
  induction N with
  | zero =>
    intro st hst hinv y hy
    have h0 : st = [] := stackMeasure_eq_zero (Nat.le_zero.mp hst)
    subst h0
    simp [walkLoop] at hy
  | succ N IH =>
    intro st hst hinv y hy
    cases st with
    | nil => simp [walkLoop] at hy
    | cons hd rest =>
      obtain ⟨p₀, e₀⟩ := hd
      cases e₀ with
      | file n st' =>
        simp only [walkLoop] at hy
        rw [stackMeasure_cons] at hst
        simp only [fsSize] at hst
        exact IH rest (by omega) (fun pe h => hinv pe (List.mem_cons_of_mem _ h)) y hy
      | dir n rb cs =>
        cases rb with
        | false =>
          simp only [walkLoop] at hy
          rw [stackMeasure_cons] at hst
          simp only [fsSize] at hst
          exact IH rest (by omega) (fun pe h => hinv pe (List.mem_cons_of_mem _ h)) y hy
        | true =>
          simp only [walkLoop] at hy
          have hmeas : stackMeasure ((scanChildren ih sk p₀ cs).2.reverse ++ rest) ≤ N := by
            rw [stackMeasure_append, stackMeasure_reverse]
            rw [stackMeasure_cons] at hst
            have := scanChildren_measure ih sk p₀ cs
            simp only [fsSize] at hst
            omega
          rcases List.mem_append.mp hy with h | h
          · obtain ⟨nn, rfl⟩ := scanChildren_yield_shape ih sk p₀ cs y h
            intro c hc
            rw [List.dropLast_concat] at hc
            exact hinv (p₀, FS.dir n true cs) (List.mem_cons_self _ _) c hc
          · apply IH _ hmeas _ y h
            intro pe hpe
            rcases List.mem_append.mp hpe with hpe | hpe
            · obtain ⟨m, e, rfl, hm⟩ :=
                scanChildren_push_shape ih sk p₀ cs pe (List.mem_reverse.mp hpe)
              intro c hc
              rcases List.mem_append.mp hc with hc | hc
              · exact hinv (p₀, FS.dir n true cs) (List.mem_cons_self _ _) c hc
              · rw [List.mem_singleton] at hc
                subst hc
                exact hm
            · exact hinv pe (List.mem_cons_of_mem _ hpe)

/-- Python `lst.strip(".")` on a list of characters: drop the leading
run of dots. (Only used after `.lower()`, and only `lstrip` appears in the
source, utils.py line 25 and cli.py line 149.) -/
def lstripDots (s : String) : String := String.mk (s.data.dropWhile fun c => c == '.')

/-- Embedding of `_normalize_ext` (utils.py lines 24-25):
`ext.lower().lstrip(".") if ext else None`. An empty string is falsy in
Python, hence maps to `none`. -/
def normalizeExt : Option String → Option String
  | none => none
  | some e => if e = "" then none else some (lstripDots (lowerString e))

/-- Embedding of `substring.lower() if substring else None`
(cli.py line 128). -/
def subNormOf : Option String → Option String
  | none => none
  | some s => if s = "" then none else some (lowerString s)

/-- Python `sub in name`: substring containment on character lists. -/
def containsSub (pat s : String) : Bool :=
  s.data.tails.any fun t => pat.data.isPrefixOf t

/-- Embedding of `pathlib.PurePath.suffix` on a file name: the substring
from the last dot (dot included), empty when there is no dot, when the
last dot is the first character (hidden-style names such as `.bashrc`),
or when the last dot is the final character. -/
def pySuffix (name : String) : String :=
  let cs := name.data
  match cs.reverse.findIdx? (fun c => c == '.') with
  | none => ""
  | some j =>
    if 0 < cs.length - 1 - j ∧ j ≠ 0 then
      String.mk ('.' :: (cs.reverse.take j).reverse)
    else ""

/-- The substring filter of `search` (cli.py line 147):
`if sub_norm and sub_norm not in name: continue`, applied to the lowered
base name. `none` and the empty string are falsy, hence no constraint. -/
def passesSub (subNorm : Option String) (lname : String) : Bool :=
  match subNorm with
  | none => true
  | some s => if s = "" then true else containsSub s lname

/-- The extension filter of `search` (cli.py line 149):
`if ext_norm and path.suffix.lower().lstrip(".") != ext_norm: continue`.
`none` and the empty string are falsy, hence no constraint. -/
def passesExt (extNorm : Option String) (name : String) : Bool :=
  match extNorm with
  | none => true
  | some e =>
    if e = "" then true
    else lstripDots (lowerString (pySuffix name)) == e

/-- Look a path up in the tree (first child with a matching basename,
as on a real filesystem where names within a directory are unique). -/
def findFS : FS → List String → Option FS
  | e, [] => some e
  | .dir _ _ cs, c :: rest =>
    match cs.find? (fun e => fsName e == c) with
    | some e => findFS e rest
    | none => none
  | .file _ _, _ :: _ => none

/-- Result of `path.stat()` for a walked file path: `none` models the
`OSError` of a vanished or unreadable file. -/
def statOf (root : FS) (p : List String) : Option FileStat :=
  match findFS root p with
  | some (.file _ st) => st
  | _ => none

/-- The `MatchRow` dataclass (cli.py lines 35-40). -/
structure MatchRow where
  path : String
  size_bytes : Nat
  size_human : String
  mtime_iso : String
deriving DecidableEq

/-- Python `path.name`: the final path component. -/
def pathName (p : List String) : String := p.getLastD ""

/-- Minimum-size criterion (cli.py line 155): skip when `size_b < min_bytes`. -/
def sizeOkMin : Option Nat → Nat → Bool
  | none, _ => true
  | some m, s => decide (m ≤ s)

/-- Maximum-size criterion (cli.py line 157): skip when `size_b > max_bytes`. -/
def sizeOkMax : Option Nat → Nat → Bool
  | none, _ => true
  | some m, s => decide (s ≤ m)

/-- Round a nonnegative rational to the nearest integer, ties to even.
This is both the significand rounding of IEEE-754 round-to-nearest (used
by `pyFloat` below on the scaled value) and how CPython renders
`f"{n:.1f}"` for a double whose value is exactly the rational
`n * 10⁻¹`-scaled quantity. -/
def rhe (x : ℚ) : ℤ :=
  let f := ⌊x⌋
  if x - f < 1 / 2 then f
  else if 1 / 2 < x - f then f + 1
  else if f % 2 = 0 then f else f + 1

/-- Python `f"{n:.1f}"`: the value rendered with exactly one digit after
the decimal point. -/
def fmt1 (q : ℚ) : String :=
  toString (rhe (q * 10) / 10) ++ "." ++ toString (rhe (q * 10) % 10)

/-- The unit-selection loop of `human_size` (utils.py lines 130-136).
The running float is carried as an exact rational: dividing a double by
1024 is exact, so for inputs below 2⁵³ the two agree. `int(n)` is
truncation; the walker only ever passes nonnegative values, where
truncation is the floor. -/
def humanSizeGo (n : ℚ) : List String → String
  | [] => fmt1 n ++ "PB"
  | u :: rest =>
    if n < 1024 ∨ u = "PB" then
      if u = "B" then toString ⌊n⌋ ++ u else fmt1 n ++ u
    else humanSizeGo (n / 1024) rest

/-- Embedding of `human_size` (utils.py lines 128-136). -/
def human_size (numBytes : Nat) : String :=
  humanSizeGo (numBytes : ℚ) ["B", "KB", "MB", "GB", "TB", "PB"]

/-- The per-file filter/stat/collect loop of `search` (cli.py lines
138-173), folded over the paths yielded by the walker: the name filters
run first (`continue` on failure), then `path.stat()` — whose failure is
counted in `errors` and skips the entry — then the size bounds
(`continue`), and finally the row is appended. Paths are rendered
relative to the root (the default `--relative` output mode). -/
def searchScan (root : FS) (sn en : Option String) (mb xb : Option Nat) :
    List (List String) → List MatchRow × Nat
  | [] => ([], 0)
  | p :: ps =>
    let rest := searchScan root sn en mb xb ps
    if passesSub sn (lowerString (pathName p)) && passesExt en (pathName p) then
      match statOf root p with
      | none => (rest.1, rest.2 + 1)
      | some st =>
        if sizeOkMin mb st.size && sizeOkMax xb st.size then
          ({ path := String.intercalate "/" p
             size_bytes := st.size
             size_human := human_size st.size
             mtime_iso := st.mtime } :: rest.1, rest.2)
        else rest
    else rest

/-- The walk plus the collect loop of `search` (cli.py lines 126-173):
rows in walk order together with the error counter, before sorting and
limiting. `mb`/`xb` are the already-parsed `min_bytes`/`max_bytes`. -/
def searchCore (root : FS) (substring ext : Option String) (mb xb : Option Nat)
    (ih : Bool) (sk : List String) : List MatchRow × Nat :=
  searchScan root (subNormOf substring) (normalizeExt ext) mb xb
    (walk_files root ih sk)

/-- Stable insertion into a sorted list: `x` is placed before the first
`y` it may precede, hence after every earlier-arrived tied element. -/
def sInsert (bef : α → α → Bool) (x : α) : List α → List α
  | [] => [x]
  | y :: ys => if bef x y then x :: y :: ys else y :: sInsert bef x ys

/-- Stable sort, the behavioural model of CPython `list.sort` (Timsort is
specified to be a stable sort; `reverse=True` reverses each comparison,
keeping ties in original order). `bef x y` reads: `x`, arriving earlier,
may be placed before `y`. -/
def sSort (bef : α → α → Bool) : List α → List α
  | [] => []
  | x :: xs => sInsert bef x (sSort bef xs)

/-- The sort dispatch of `search` (cli.py lines 176-182):
`size` sorts descending on byte count, `mtime` ascending on the formatted
timestamp, anything else ascending case-insensitively on the path. -/
def sortRows (sort : String) (rows : List MatchRow) : List MatchRow :=
  let key := lowerString sort
  if key = "size" then
    sSort (fun a b => decide (b.size_bytes ≤ a.size_bytes)) rows
  else if key = "mtime" then
    sSort (fun a b => decide (a.mtime_iso ≤ b.mtime_iso)) rows
  else
    sSort (fun a b => decide (lowerString a.path ≤ lowerString b.path)) rows

/-- The limit step of `search` (cli.py lines 185-186):
`rows = rows[: max(0, limit)]` when a limit is given. -/
def applyLimit (limit : Option Int) (rows : List MatchRow) : List MatchRow :=
  match limit with
  | none => rows
  | some n => rows.take (max 0 n).toNat

/-- Python `str.strip()` on a character list: drop whitespace from both
ends (utils.py line 106). -/
def stripChars (cs : List Char) : List Char :=
  ((cs.dropWhile wsp).reverse.dropWhile wsp).reverse

/-- Integer value of a run of decimal digit characters. -/
def natOfDigits (cs : List Char) : Nat :=
  cs.foldl (fun a c => 10 * a + (c.toNat - 48)) 0

/-- Value of the digit run after the decimal point, as an exact rational. -/
def fracOfDigits (cs : List Char) : ℚ :=
  cs.foldr (fun c a => (((c.toNat - 48 : Nat) : ℚ) + a) / 10) 0

/-- The optional fraction group `(?:\.[0-9]+)?` of `_SIZE_RE`: taken
exactly when a dot followed by at least one digit comes next (a bare
trailing dot can never be absorbed by the remaining `\s*[a-zA-Z]*\s*$`,
so declining the group never rescues a match: the regex is deterministic
on its disjoint character classes). Returns the consumed characters and
the remainder. -/
def sizeMatchFrac : List Char → List Char × List Char
  | '.' :: r2 =>
    if r2.takeWhile isDig = [] then ([], '.' :: r2)
    else ('.' :: r2.takeWhile isDig, r2.dropWhile isDig)
  | r1 => ([], r1)

/-- The tail `\s*([a-zA-Z]*)\s*$` of `_SIZE_RE`: the unit capture group
when the remainder matches, `none` otherwise. -/
def sizeMatchEnd (r2 : List Char) : Option (List Char) :=
  if ((r2.dropWhile wsp).dropWhile isAl).dropWhile wsp = [] then
    some ((r2.dropWhile wsp).takeWhile isAl)
  else none

/-- The match of `_SIZE_RE = ^\s*([0-9]+(?:\.[0-9]+)?)\s*([a-zA-Z]*)\s*$`
(utils.py line 95): the two capture groups (number text, unit text), or
`none` when the text does not match. -/
def sizeMatchL (cs : List Char) : Option (List Char × List Char) :=
  if ((cs.dropWhile wsp).takeWhile isDig) = [] then none
  else
    match sizeMatchEnd (sizeMatchFrac ((cs.dropWhile wsp).dropWhile isDig)).2 with
    | some unitcs =>
      some ((cs.dropWhile wsp).takeWhile isDig ++
        (sizeMatchFrac ((cs.dropWhile wsp).dropWhile isDig)).1, unitcs)
    | none => none

/-- Exact value of the matched number group: `float(number_str)`
modelled as the exact rational the decimal literal denotes. -/
def charsNumVal (num : List Char) : ℚ :=
  let ip := num.takeWhile isDig
  match num.dropWhile isDig with
  | '.' :: fp => (natOfDigits ip : ℚ) + fracOfDigits fp
  | _ => (natOfDigits ip : ℚ)

/-- The `_SIZE_MULTIPLIERS` table (utils.py lines 76-93). -/
def _SIZE_MULTIPLIERS : List (String × Nat) :=
  [("b", 1),
   ("k", 1024), ("kb", 1024), ("kib", 1024),
   ("m", 1024 ^ 2), ("mb", 1024 ^ 2), ("mib", 1024 ^ 2),
   ("g", 1024 ^ 3), ("gb", 1024 ^ 3), ("gib", 1024 ^ 3),
   ("t", 1024 ^ 4), ("tb", 1024 ^ 4), ("tib", 1024 ^ 4),
   ("p", 1024 ^ 5), ("pb", 1024 ^ 5), ("pib", 1024 ^ 5)]

/-- Dictionary lookup `_SIZE_MULTIPLIERS[unit]`. -/
def multLookup (u : String) : Option Nat :=
  (_SIZE_MULTIPLIERS.find? (fun e => e.1 == u)).map (fun e => e.2)

/-- Python `float(number_str)` on a nonnegative value: the exact rational
is rounded to the nearest IEEE-754 binary64 value, ties to even (CPython
parses float literals correctly rounded). The significand is rounded at
scale `2 ^ (e - 52)` for exponent `e = ⌊log₂ q⌋`, clamped to the
subnormal scale `2 ^ (-1074)`; a result at or above `2 ^ 1024` overflows
to infinity (`none`). The parser below only ever passes nonnegative
values (the regex admits no sign). -/
def pyFloat (q : ℚ) : Option ℚ :=
  if q ≤ 0 then some 0
  else
    let s : ℤ := max (Int.log 2 q - 52) (-1074)
    let r : ℚ :=
      if 0 ≤ s then (rhe (q / 2 ^ s.toNat) : ℚ) * 2 ^ s.toNat
      else (rhe (q * 2 ^ (-s).toNat) : ℚ) / 2 ^ (-s).toNat
    if r < 2 ^ 1024 then some r else none

/-- The failure modes of `parse_size`: the two `ValueError`s raised by the
source (distinguished by their messages; §7 of the spec names them), and
`overflow` for the uncaught `OverflowError` that `int(...)` raises when
`float(number_str)` (or its product with the multiplier) is infinite. -/
inductive SizeErr where
  | invalidSizeFormat
  | unknownSizeUnit
  | overflow
deriving DecidableEq

/-- Embedding of `parse_size` (utils.py lines 98-125). `none` input and
whitespace-only input return `ok none` (no constraint). The number is
parsed as a double (`pyFloat`); multiplying the double by the power-of-two
multiplier is exact in binary64 exactly when the product stays below
`2 ^ 1024` (the significand is unchanged), and overflows to infinity
otherwise; the value is nonnegative, so `int(...)`-truncation is the
floor. -/
def parse_size (size : Option String) : Except SizeErr (Option ℤ) :=
  match size with
  | none => .ok none
  | some s =>
    if stripChars s.data = [] then .ok none
    else
      match sizeMatchL (stripChars s.data) with
      | none => .error .invalidSizeFormat
      | some (num, unitcs) =>
        if unitcs = [] then
          match pyFloat (charsNumVal num) with
          | some d => .ok (some ⌊d⌋)
          | none => .error .overflow
        else
          match multLookup (String.mk (unitcs.map Char.toLower)) with
          | some m =>
            match pyFloat (charsNumVal num) with
            | some d =>
              if d * (m : ℚ) < 2 ^ 1024 then .ok (some ⌊d * (m : ℚ)⌋)
              else .error .overflow
            | none => .error .overflow
          | none => .error .unknownSizeUnit


/-- The character for the decimal digit `d`. -/
def digitChar (d : Nat) : Char := Char.ofNat (48 + d)

/-- Characters of a digit list. -/
def digitsToChars (ds : List Nat) : List Char := ds.map digitChar

/-- Claim-side value of the integer-part digit list. -/
def digitsVal (ds : List Nat) : Nat := ds.foldl (fun a d => 10 * a + d) 0

/-- Claim-side value of the fractional-part digit list. -/
def fracValN (fs : List Nat) : ℚ := fs.foldr (fun d a => ((d : ℚ) + a) / 10) 0

/-- Claim-side value of the decimal number with digits `ds . fs`. -/
def numVal (ds fs : List Nat) : ℚ := (digitsVal ds : ℚ) + fracValN fs

/-- Character list of the rendered size string `<ds>[.<fs>]<u>`. -/
def numChars (ds fs : List Nat) : List Char :=
  digitsToChars ds ++ (if fs = [] then [] else '.' :: digitsToChars fs)

/-- The rendered size string `<ds>[.<fs>]<u>`. -/
def sizeStr (ds fs : List Nat) (u : String) : String :=
  String.mk (numChars ds fs ++ u.data)

theorem digitChar_toNat {d : Nat} (h : d < 10) : (digitChar d).toNat = 48 + d := by
  interval_cases d <;> decide

theorem isDig_digitChar {d : Nat} (h : d < 10) : isDig (digitChar d) = true := by
  interval_cases d <;> decide

theorem wsp_digitChar {d : Nat} (h : d < 10) : wsp (digitChar d) = false := by
  interval_cases d <;> decide

theorem digitChar_ne_dot {d : Nat} (h : d < 10) : digitChar d ≠ '.' := by
  interval_cases d <;> decide

theorem isAl_not_isDig {c : Char} (h : isAl c = true) : isDig c = false := by
  simp [isAl, isDig] at *
  omega

theorem isAl_not_wsp {c : Char} (h : isAl c = true) : wsp c = false := by
  simp [isAl, wsp] at *
  omega

theorem isDig_not_wsp {c : Char} (h : isDig c = true) : wsp c = false := by
  simp [isDig, wsp] at *
  omega

theorem takeWhileAll {p : α → Bool} :
    ∀ l : List α, (∀ c ∈ l, p c = true) → l.takeWhile p = l := by
  intro l hl
  induction l with
  | nil => rfl
  | cons x xs ihx =>
    rw [List.takeWhile_cons, hl x (List.mem_cons_self _ _)]
    simp only [ite_true]
    rw [ihx fun c hc => hl c (List.mem_cons_of_mem _ hc)]

theorem dropWhileAll {p : α → Bool} :
    ∀ l : List α, (∀ c ∈ l, p c = true) → l.dropWhile p = [] := by
  intro l hl
  induction l with
  | nil => rfl
  | cons x xs ihx =>
    rw [List.dropWhile_cons, hl x (List.mem_cons_self _ _)]
    simp only [ite_true]
    exact ihx fun c hc => hl c (List.mem_cons_of_mem _ hc)

theorem takeWhileNone {p : α → Bool} :
    ∀ l : List α, (∀ c ∈ l, p c = false) → l.takeWhile p = [] := by
  intro l hl
  cases l with
  | nil => rfl
  | cons x xs =>
    rw [List.takeWhile_cons, hl x (List.mem_cons_self _ _)]
    simp

theorem dropWhileNone {p : α → Bool} :
    ∀ l : List α, (∀ c ∈ l, p c = false) → l.dropWhile p = l := by
  intro l hl
  cases l with
  | nil => rfl
  | cons x xs =>
    rw [List.dropWhile_cons, hl x (List.mem_cons_self _ _)]
    simp

theorem takeWhileAppendAll {p : α → Bool} :
    ∀ l₁ l₂ : List α, (∀ c ∈ l₁, p c = true) →
      (l₁ ++ l₂).takeWhile p = l₁ ++ l₂.takeWhile p := by
  intro l₁ l₂ hl
  induction l₁ with
  | nil => rfl
  | cons x xs ihx =>
    rw [List.cons_append, List.takeWhile_cons, hl x (List.mem_cons_self _ _)]
    simp only [ite_true]
    rw [ihx fun c hc => hl c (List.mem_cons_of_mem _ hc)]
    rfl

theorem dropWhileAppendAll {p : α → Bool} :
    ∀ l₁ l₂ : List α, (∀ c ∈ l₁, p c = true) →
      (l₁ ++ l₂).dropWhile p = l₂.dropWhile p := by
  intro l₁ l₂ hl
  induction l₁ with
  | nil => rfl
  | cons x xs ihx =>
    rw [List.cons_append, List.dropWhile_cons, hl x (List.mem_cons_self _ _)]
    simp only [ite_true]
    exact ihx fun c hc => hl c (List.mem_cons_of_mem _ hc)

theorem stripCharsAll (cs : List Char) (h : ∀ c ∈ cs, wsp c = false) :
    stripChars cs = cs := by
  unfold stripChars
  rw [dropWhileNone cs h]
  rw [dropWhileNone cs.reverse fun c hc => h c (List.mem_reverse.mp hc)]
  exact List.reverse_reverse cs

theorem digitsToChars_isDig {ds : List Nat} (h : ∀ d ∈ ds, d < 10) :
    ∀ c ∈ digitsToChars ds, isDig c = true := by
  intro c hc
  obtain ⟨d, hd, rfl⟩ := List.mem_map.mp hc
  exact isDig_digitChar (h d hd)

theorem digitsToChars_not_wsp {ds : List Nat} (h : ∀ d ∈ ds, d < 10) :
    ∀ c ∈ digitsToChars ds, wsp c = false := by
  intro c hc
  obtain ⟨d, hd, rfl⟩ := List.mem_map.mp hc
  exact wsp_digitChar (h d hd)

theorem numChars_not_wsp {ds fs : List Nat} (h1 : ∀ d ∈ ds, d < 10)
    (h2 : ∀ d ∈ fs, d < 10) : ∀ c ∈ numChars ds fs, wsp c = false := by
  intro c hc
  rcases List.mem_append.mp hc with hc | hc
  · exact digitsToChars_not_wsp h1 c hc
  · split at hc
    · simp at hc
    · rcases List.mem_cons.mp hc with rfl | hc
      · decide
      · exact digitsToChars_not_wsp h2 c hc

theorem isAl_not_dot {c : Char} (h : isAl c = true) : c ≠ '.' := by
  intro hc
  subst hc
  simp [isAl] at h

theorem sizeMatchFrac_alpha (u : String) (hu : ∀ c ∈ u.data, isAl c = true) :
    sizeMatchFrac u.data = ([], u.data) := by
  cases hud : u.data with
  | nil => rfl
  | cons c cr =>
    have hc : c ≠ '.' := isAl_not_dot (hu c (by rw [hud]; exact List.mem_cons_self _ _))
    unfold sizeMatchFrac
    split
    · rename_i r2 heq
      exact absurd (List.cons.inj heq).1 hc
    · rfl

theorem sizeMatchFrac_dot {fs : List Nat} (u : String) (h2 : ∀ d ∈ fs, d < 10)
    (hfs : fs ≠ []) (hu : ∀ c ∈ u.data, isAl c = true) :
    sizeMatchFrac ('.' :: (digitsToChars fs ++ u.data)) =
      ('.' :: digitsToChars fs, u.data) := by
  have htake : (digitsToChars fs ++ u.data).takeWhile isDig = digitsToChars fs := by
    rw [takeWhileAppendAll _ _ (digitsToChars_isDig h2)]
    rw [takeWhileNone u.data (fun c hc => isAl_not_isDig (hu c hc))]
    exact List.append_nil _
  have hdrop : (digitsToChars fs ++ u.data).dropWhile isDig = u.data := by
    rw [dropWhileAppendAll _ _ (digitsToChars_isDig h2)]
    exact dropWhileNone u.data (fun c hc => isAl_not_isDig (hu c hc))
  have hne : digitsToChars fs ≠ [] := by
    simpa [digitsToChars] using hfs
  unfold sizeMatchFrac
  split
  · rename_i r2 heq
    obtain ⟨rfl⟩ : digitsToChars fs ++ u.data = r2 := (List.cons.inj heq).2
    rw [htake, hdrop, if_neg hne]
  · rename_i hne2
    exact absurd rfl (hne2 (digitsToChars fs ++ u.data))

theorem sizeMatchEnd_alpha (u : String) (hu : ∀ c ∈ u.data, isAl c = true) :
    sizeMatchEnd u.data = some u.data := by
  have hw : u.data.dropWhile wsp = u.data :=
    dropWhileNone u.data (fun c hc => isAl_not_wsp (hu c hc))
  unfold sizeMatchEnd
  rw [hw, dropWhileAll u.data hu, takeWhileAll u.data hu]
  rfl

theorem numChars_takeWhile {ds fs : List Nat} (h1 : ∀ d ∈ ds, d < 10)
    (h2 : ∀ d ∈ fs, d < 10) (u : String) (hu : ∀ c ∈ u.data, isAl c = true) :
    (numChars ds fs ++ u.data).takeWhile isDig = digitsToChars ds := by
  unfold numChars
  rw [List.append_assoc, takeWhileAppendAll _ _ (digitsToChars_isDig h1)]
  split
  · rw [List.nil_append,
      takeWhileNone u.data (fun c hc => isAl_not_isDig (hu c hc)), List.append_nil]
  · rw [List.cons_append, List.takeWhile_cons]
    simp [show isDig '.' = false from by decide]

theorem numChars_dropWhile {ds fs : List Nat} (h1 : ∀ d ∈ ds, d < 10)
    (h2 : ∀ d ∈ fs, d < 10) (u : String) (hu : ∀ c ∈ u.data, isAl c = true) :
    (numChars ds fs ++ u.data).dropWhile isDig =
      (if fs = [] then [] else '.' :: digitsToChars fs) ++ u.data := by
  unfold numChars
  rw [List.append_assoc, dropWhileAppendAll _ _ (digitsToChars_isDig h1)]
  split
  · rw [List.nil_append, dropWhileNone u.data (fun c hc => isAl_not_isDig (hu c hc))]
  · rw [List.cons_append, List.dropWhile_cons]
    simp [show isDig '.' = false from by decide]

theorem sizeMatchL_roundtrip (ds fs : List Nat) (u : String)
    (hds : ds ≠ []) (h1 : ∀ d ∈ ds, d < 10) (h2 : ∀ d ∈ fs, d < 10)
    (hu : ∀ c ∈ u.data, isAl c = true) :
    sizeMatchL (numChars ds fs ++ u.data) = some (numChars ds fs, u.data) := by
  have hnw : ∀ c ∈ numChars ds fs ++ u.data, wsp c = false := by
    intro c hc
    rcases List.mem_append.mp hc with hc | hc
    · exact numChars_not_wsp h1 h2 c hc
    · exact isAl_not_wsp (hu c hc)
  have hdsne : digitsToChars ds ≠ [] := by simpa [digitsToChars] using hds
  unfold sizeMatchL
  rw [dropWhileNone _ hnw, numChars_takeWhile h1 h2 u hu, if_neg hdsne,
    numChars_dropWhile h1 h2 u hu]
  by_cases hfs : fs = []
  · rw [if_pos hfs, List.nil_append, sizeMatchFrac_alpha u hu,
      sizeMatchEnd_alpha u hu]
    simp [numChars, hfs]
  · rw [if_neg hfs, List.cons_append, sizeMatchFrac_dot u h2 hfs hu,
      sizeMatchEnd_alpha u hu]
    simp [numChars, hfs]

theorem natOfDigits_decode {ds : List Nat} (h : ∀ d ∈ ds, d < 10) :
    ∀ a : Nat, (digitsToChars ds).foldl (fun x c => 10 * x + (c.toNat - 48)) a =
      ds.foldl (fun x d => 10 * x + d) a := by
  induction ds with
  | nil => intro a; rfl
  | cons d ds ihd =>
    intro a
    have hd := h d (List.mem_cons_self _ _)
    simp only [digitsToChars, List.map_cons, List.foldl_cons]
    rw [digitChar_toNat hd, Nat.add_sub_cancel_left]
    exact ihd (fun x hx => h x (List.mem_cons_of_mem _ hx)) _

theorem fracOfDigits_cons (c : Char) (cs : List Char) :
    fracOfDigits (c :: cs) = (((c.toNat - 48 : Nat) : ℚ) + fracOfDigits cs) / 10 := rfl

theorem fracValN_cons (d : Nat) (ds : List Nat) :
    fracValN (d :: ds) = ((d : ℚ) + fracValN ds) / 10 := rfl

theorem fracOfDigits_decode {fs : List Nat} (h : ∀ d ∈ fs, d < 10) :
    fracOfDigits (digitsToChars fs) = fracValN fs := by
  induction fs with
  | nil => rfl
  | cons d fs ihd =>
    have hd := h d (List.mem_cons_self _ _)
    show fracOfDigits (digitChar d :: digitsToChars fs) = fracValN (d :: fs)
    rw [fracOfDigits_cons, fracValN_cons, digitChar_toNat hd, Nat.add_sub_cancel_left]
    rw [ihd (fun x hx => h x (List.mem_cons_of_mem _ hx))]

theorem charsNumVal_roundtrip (ds fs : List Nat)
    (h1 : ∀ d ∈ ds, d < 10) (h2 : ∀ d ∈ fs, d < 10) :
    charsNumVal (numChars ds fs) = numVal ds fs := by
  have hds0 : (numChars ds fs).takeWhile isDig = digitsToChars ds := by
    have := numChars_takeWhile h1 h2 "" (by intro c hc; simp at hc)
    simpa using this
  have hds1 : (numChars ds fs).dropWhile isDig =
      (if fs = [] then [] else '.' :: digitsToChars fs) := by
    have := numChars_dropWhile h1 h2 "" (by intro c hc; simp at hc)
    simpa using this
  have hnat : natOfDigits (digitsToChars ds) = digitsVal ds := natOfDigits_decode h1 0
  unfold charsNumVal
  rw [hds0, hds1]
  by_cases hfs : fs = []
  · rw [if_pos hfs]
    subst hfs
    simp [numVal, fracValN, hnat]
  · rw [if_neg hfs]
    simp only []
    rw [hnat, fracOfDigits_decode h2]
    rfl

theorem numChars_ne_nil {ds fs : List Nat} (hds : ds ≠ []) (u : String) :
    numChars ds fs ++ u.data ≠ [] := by
  have : digitsToChars ds ≠ [] := by simpa [digitsToChars] using hds
  unfold numChars
  intro h
  rcases List.append_eq_nil.mp h with ⟨h1, _⟩
  rcases List.append_eq_nil.mp h1 with ⟨h2, _⟩
  exact this h2

theorem parse_size_eval_unit (ds fs : List Nat) (u : String) (m : Nat)
    (hds : ds ≠ []) (h1 : ∀ d ∈ ds, d < 10) (h2 : ∀ d ∈ fs, d < 10)
    (hu : ∀ c ∈ u.data, isAl c = true)
    (hm : multLookup (String.mk (u.data.map Char.toLower)) = some m) :
    parse_size (some (sizeStr ds fs u)) =
      match pyFloat (numVal ds fs) with
      | some d =>
        if d * (m : ℚ) < 2 ^ 1024 then .ok (some ⌊d * (m : ℚ)⌋)
        else .error .overflow
      | none => .error .overflow := by
  have hnw : ∀ c ∈ numChars ds fs ++ u.data, wsp c = false := by
    intro c hc
    rcases List.mem_append.mp hc with hc | hc
    · exact numChars_not_wsp h1 h2 c hc
    · exact isAl_not_wsp (hu c hc)
  have hdata : (sizeStr ds fs u).data = numChars ds fs ++ u.data := rfl
  have hud : u.data ≠ [] := by
    intro h
    rw [h] at hm
    have h0 : multLookup (String.mk (List.map Char.toLower [])) = none := by decide
    rw [h0] at hm
    exact Option.noConfusion hm
  simp only [parse_size]
  rw [hdata, stripCharsAll _ hnw, if_neg (numChars_ne_nil hds u),
    sizeMatchL_roundtrip ds fs u hds h1 h2 hu]
  simp only [if_neg hud, hm, charsNumVal_roundtrip ds fs h1 h2]

theorem parse_size_eval_bytes (ds fs : List Nat)
    (hds : ds ≠ []) (h1 : ∀ d ∈ ds, d < 10) (h2 : ∀ d ∈ fs, d < 10) :
    parse_size (some (sizeStr ds fs "")) =
      match pyFloat (numVal ds fs) with
      | some d => .ok (some ⌊d⌋)
      | none => .error .overflow := by
  have hu : ∀ c ∈ ("" : String).data, isAl c = true := by intro c hc; simp at hc
  have hnw : ∀ c ∈ numChars ds fs ++ ("" : String).data, wsp c = false := by
    intro c hc
    rcases List.mem_append.mp hc with hc | hc
    · exact numChars_not_wsp h1 h2 c hc
    · simp at hc
  have hdata : (sizeStr ds fs "").data = numChars ds fs ++ ("" : String).data := rfl
  simp only [parse_size]
  rw [hdata, stripCharsAll _ hnw, if_neg (numChars_ne_nil hds ""),
    sizeMatchL_roundtrip ds fs "" hds h1 h2 hu]
  simp only [if_pos rfl, charsNumVal_roundtrip ds fs h1 h2, if_true]

theorem parse_size_roundtrip_unit (ds fs : List Nat) (u : String) (m : Nat)
    (hds : ds ≠ []) (h1 : ∀ d ∈ ds, d < 10) (h2 : ∀ d ∈ fs, d < 10)
    (hu : ∀ c ∈ u.data, isAl c = true)
    (hm : multLookup (String.mk (u.data.map Char.toLower)) = some m)
    (hrep : pyFloat (numVal ds fs) = some (numVal ds fs))
    (hov : numVal ds fs * (m : ℚ) < 2 ^ 1024) :
    parse_size (some (sizeStr ds fs u)) = .ok (some ⌊numVal ds fs * (m : ℚ)⌋) := by
  rw [parse_size_eval_unit ds fs u m hds h1 h2 hu hm, hrep]
  simp only [if_pos hov]

theorem parse_size_roundtrip_bytes (ds fs : List Nat)
    (hds : ds ≠ []) (h1 : ∀ d ∈ ds, d < 10) (h2 : ∀ d ∈ fs, d < 10)
    (hrep : pyFloat (numVal ds fs) = some (numVal ds fs)) :
    parse_size (some (sizeStr ds fs "")) = .ok (some ⌊numVal ds fs⌋) := by
  rw [parse_size_eval_bytes ds fs hds h1 h2, hrep]

theorem parse_size_invalid (s : String)
    (hne : stripChars s.data ≠ []) (hm : sizeMatchL (stripChars s.data) = none) :
    parse_size (some s) = .error .invalidSizeFormat := by
  simp only [parse_size]
  rw [if_neg hne, hm]

theorem parse_size_unknown (s : String) (num unitcs : List Char)
    (hne : stripChars s.data ≠ [])
    (hm : sizeMatchL (stripChars s.data) = some (num, unitcs))
    (hu : unitcs ≠ [])
    (hl : multLookup (String.mk (unitcs.map Char.toLower)) = none) :
    parse_size (some s) = .error .unknownSizeUnit := by
  simp only [parse_size]
  rw [if_neg hne, hm]
  simp only [if_neg hu, hl]

theorem humanSizeGo_step {n : ℚ} {u : String} {rest : List String}
    (h1 : ¬(n < 1024)) (h2 : u ≠ "PB") :
    humanSizeGo n (u :: rest) = humanSizeGo (n / 1024) rest := by
  simp [humanSizeGo, h1, h2]

theorem humanSizeGo_stop_fmt {n : ℚ} {u : String} {rest : List String}
    (h : n < 1024 ∨ u = "PB") (hB : u ≠ "B") :
    humanSizeGo n (u :: rest) = fmt1 n ++ u := by
  rcases h with h | h
  · simp [humanSizeGo, h, hB]
  · simp [humanSizeGo, h, hB]

theorem humanSizeGo_stop_B {n : ℚ} {rest : List String} (h : n < 1024) :
    humanSizeGo n ("B" :: rest) = toString ⌊n⌋ ++ "B" := by
  simp [humanSizeGo, h]

theorem fmt1_shape (q : ℚ) :
    ∃ a b : ℤ, 0 ≤ b ∧ b < 10 ∧ fmt1 q = toString a ++ "." ++ toString b := by
  refine ⟨rhe (q * 10) / 10, rhe (q * 10) % 10, ?_, ?_, rfl⟩
  · exact Int.emod_nonneg _ (by norm_num)
  · exact Int.emod_lt_of_pos _ (by norm_num)

theorem natCast_div_pow_lt (nb k : Nat) :
    ((nb : ℚ) / 1024 ^ k < 1024) ↔ nb < 1024 ^ (k + 1) := by
  rw [div_lt_iff (by positivity : (0 : ℚ) < 1024 ^ k)]
  have h : (1024 : ℚ) * 1024 ^ k = ((1024 ^ (k + 1) : ℕ) : ℚ) := by
    push_cast
    ring
  rw [h]
  exact Nat.cast_lt

theorem div_pow_succ (nb : ℚ) (k : Nat) :
    nb / 1024 ^ k / 1024 = nb / 1024 ^ (k + 1) := by
  rw [div_div, ← pow_succ]

/-- The unit ladder of `human_size` (utils.py line 130). -/
def unitNames : List String := ["B", "KB", "MB", "GB", "TB", "PB"]

theorem sInsert_perm (bef : α → α → Bool) (x : α) :
    ∀ l : List α, (sInsert bef x l).Perm (x :: l) := by
  intro l
  induction l with
  | nil => exact List.Perm.refl _
  | cons y ys ihy =>
    unfold sInsert
    split
    · exact List.Perm.refl _
    · exact (List.Perm.cons y ihy).trans (List.Perm.swap x y ys)

theorem sSort_perm (bef : α → α → Bool) :
    ∀ l : List α, (sSort bef l).Perm l := by
  intro l
  induction l with
  | nil => exact List.Perm.refl _
  | cons x xs ihx =>
    exact (sInsert_perm bef x (sSort bef xs)).trans (List.Perm.cons x ihx)

theorem sInsert_pairwise (bef : α → α → Bool)
    (htot : ∀ a b, bef a b = true ∨ bef b a = true)
    (htrans : ∀ a b c, bef a b = true → bef b c = true → bef a c = true)
    (x : α) :
    ∀ l : List α, l.Pairwise (fun a b => bef a b = true) →
      (sInsert bef x l).Pairwise (fun a b => bef a b = true) := by
  intro l
  induction l with
  | nil =>
    intro _
    exact List.pairwise_singleton _ _
  | cons y ys ihy =>
    intro hl
    rw [List.pairwise_cons] at hl
    obtain ⟨hy, hys⟩ := hl
    unfold sInsert
    split
    · rename_i hxy
      rw [List.pairwise_cons]
      refine ⟨?_, List.pairwise_cons.mpr ⟨hy, hys⟩⟩
      intro z hz
      rcases List.mem_cons.mp hz with rfl | hz
      · exact hxy
      · exact htrans x y z hxy (hy z hz)
    · rename_i hxy
      rw [List.pairwise_cons]
      refine ⟨?_, ihy hys⟩
      intro z hz
      have hz2 : z ∈ x :: ys := (sInsert_perm bef x ys).mem_iff.mp hz
      rcases List.mem_cons.mp hz2 with rfl | hz2
      · rcases htot z y with h | h
        · exact absurd h hxy
        · exact h
      · exact hy z hz2

theorem sSort_pairwise (bef : α → α → Bool)
    (htot : ∀ a b, bef a b = true ∨ bef b a = true)
    (htrans : ∀ a b c, bef a b = true → bef b c = true → bef a c = true) :
    ∀ l : List α, (sSort bef l).Pairwise (fun a b => bef a b = true) := by
  intro l
  induction l with
  | nil => exact List.Pairwise.nil
  | cons x xs ihx => exact sInsert_pairwise bef htot htrans x _ ihx

theorem sInsert_filter_pos (bef : α → α → Bool) (pk : α → Bool) (x : α)
    (hx : pk x = true) (hall : ∀ y, pk y = true → bef x y = true) :
    ∀ l : List α, (sInsert bef x l).filter pk = x :: l.filter pk := by
  intro l
  induction l with
  | nil => simp [sInsert, List.filter, hx]
  | cons y ys ihy =>
    unfold sInsert
    split
    · simp [List.filter, hx]
    · rename_i hxy
      have hyf : pk y = false := by
        cases hpy : pk y with
        | false => rfl
        | true => exact absurd (hall y hpy) hxy
      rw [List.filter_cons, List.filter_cons, hyf,
        if_neg Bool.false_ne_true, if_neg Bool.false_ne_true]
      exact ihy

theorem sInsert_filter_neg (bef : α → α → Bool) (pk : α → Bool) (x : α)
    (hx : pk x = false) :
    ∀ l : List α, (sInsert bef x l).filter pk = l.filter pk := by
  intro l
  induction l with
  | nil => simp [sInsert, List.filter, hx]
  | cons y ys ihy =>
    unfold sInsert
    split
    · simp [List.filter, hx]
    · rw [List.filter_cons, List.filter_cons]
      cases hpy : pk y with
      | false => simpa using ihy
      | true => simpa using ihy

theorem sSort_filter (bef : α → α → Bool) (pk : α → Bool)
    (hkey : ∀ x y, pk x = true → pk y = true → bef x y = true) :
    ∀ l : List α, (sSort bef l).filter pk = l.filter pk := by
  intro l
  induction l with
  | nil => rfl
  | cons x xs ihx =>
    show (sInsert bef x (sSort bef xs)).filter pk = (x :: xs).filter pk
    cases hx : pk x with
    | true =>
      rw [sInsert_filter_pos bef pk x hx (fun y hy => hkey x y hx hy), ihx]
      simp [List.filter_cons, hx]
    | false =>
      rw [sInsert_filter_neg bef pk x hx, ihx]
      simp [List.filter_cons, hx]

theorem charToNat_ofNat {n : Nat} (h : n < 55296) : (Char.ofNat n).toNat = n := by
  simp [Char.ofNat, Char.ofNatAux, Char.toNat, UInt32.ofNat',
    dif_pos (show n.isValidChar from Or.inl h), UInt32.toNat, BitVec.toNat_ofNatLt]

theorem toLower_toNat (c : Char) : (Char.toLower c).toNat =
    if 65 ≤ c.toNat ∧ c.toNat ≤ 90 then c.toNat + 32 else c.toNat := by
  unfold Char.toLower
  split
  · rename_i h
    rw [if_pos ⟨h.1, h.2⟩]
    exact charToNat_ofNat (by omega)
  · rename_i h
    rw [if_neg fun hc => h ⟨hc.1, hc.2⟩]

theorem toLower_ne_dot {c : Char} (h : c ≠ '.') : Char.toLower c ≠ '.' := by
  intro he
  apply h
  have h46 := congrArg Char.toNat he
  rw [toLower_toNat] at h46
  have hdot : ('.' : Char).toNat = 46 := by decide
  rw [hdot] at h46
  have hc46 : c.toNat = 46 := by
    split at h46
    · rename_i hr
      omega
    · exact h46
  calc c = Char.ofNat c.toNat := (Char.ofNat_toNat c).symm
    _ = Char.ofNat 46 := by rw [hc46]
    _ = '.' := by decide

theorem findIdx?_ge_start {p : α → Bool} :
    ∀ (l : List α) (i j : Nat), l.findIdx? p i = some j → i ≤ j := by
  intro l
  induction l with
  | nil => intro i j h; simp at h
  | cons x xs ihx =>
    intro i j h
    rw [List.findIdx?_cons] at h
    split at h
    · injection h with h'
      omega
    · have := ihx (i + 1) j h
      omega

theorem findIdx?_take_false {p : α → Bool} :
    ∀ (l : List α) (i j : Nat), l.findIdx? p i = some j →
      ∀ c ∈ l.take (j - i), p c = false := by
  intro l
  induction l with
  | nil => intro i j h; simp at h
  | cons x xs ihx =>
    intro i j h c hc
    rw [List.findIdx?_cons] at h
    split at h
    · have : j = i := by
        injection h with h'
        omega
      subst this
      simp at hc
    · rename_i hpx
      have hge := findIdx?_ge_start xs (i + 1) j h
      have hji : j - i = (j - (i + 1)) + 1 := by omega
      rw [hji, List.take_succ_cons] at hc
      rcases List.mem_cons.mp hc with rfl | hc
      · exact Bool.of_not_eq_true hpx
      · exact ihx (i + 1) j h c hc

/-- The Boolean condition under which one walked path increments the
error counter of `search`: the name filters pass and `path.stat()`
fails (cli.py lines 144-173: `continue`-style filter failures skip
silently; only the `except` around the statting body counts). -/
def scanErrPred (root : FS) (sn en : Option String) (p : List String) : Bool :=
  (passesSub sn (lowerString (pathName p)) && passesExt en (pathName p)) &&
    (statOf root p).isNone

theorem searchScan_errors (root : FS) (sn en : Option String) (mb xb : Option Nat) :
    ∀ ps : List (List String),
      (searchScan root sn en mb xb ps).2 =
        (ps.filter (scanErrPred root sn en)).length := by
  intro ps
  induction ps with
  | nil => rfl
  | cons p ps ihp =>
    simp only [searchScan]
    by_cases hb : (passesSub sn (lowerString (pathName p)) && passesExt en (pathName p)) = true
    · rw [if_pos hb]
      cases hst : statOf root p with
      | none => simp [List.filter_cons, scanErrPred, hb, hst, ihp]
      | some st =>
        simp [List.filter_cons, scanErrPred, hst, ihp, apply_ite Prod.snd]
    · rw [if_neg hb]
      simp [List.filter_cons, scanErrPred, Bool.of_not_eq_true hb, ihp]

/-- Claim-side extension predicate, following the spec's words literally:
the part of the name after the last `.` equals the (pre-normalized,
lowercase) criterion case-insensitively; a name with no dot has no
extension. -/
def specExtMatches (crit name : String) : Bool :=
  match name.data.reverse.findIdx? (fun c => c == '.') with
  | none => false
  | some j => lowerString (String.mk (name.data.reverse.take j).reverse) == crit

/-- Claim-side extension predicate as amended: additionally, a name whose
last dot is its first character (a hidden-style name such as `.txt`) is
treated as having no extension, mirroring `pathlib.PurePath.suffix`. -/
def specExtMatchesAmended (crit name : String) : Bool :=
  match name.data.reverse.findIdx? (fun c => c == '.') with
  | none => false
  | some j =>
    if name.data.length - 1 - j = 0 then false
    else lowerString (String.mk (name.data.reverse.take j).reverse) == crit

theorem pySuffix_eval_none {name : String}
    (h : name.data.reverse.findIdx? (fun c => c == '.') = none) :
    pySuffix name = "" := by
  simp only [pySuffix, h]

theorem pySuffix_eval_some_ok {name : String} {j : Nat}
    (hidx : name.data.reverse.findIdx? (fun c => c == '.') = some j)
    (hcond : 0 < name.data.length - 1 - j ∧ j ≠ 0) :
    pySuffix name = String.mk ('.' :: (name.data.reverse.take j).reverse) := by
  simp only [pySuffix, hidx, if_pos hcond]

theorem pySuffix_eval_some_bad {name : String} {j : Nat}
    (hidx : name.data.reverse.findIdx? (fun c => c == '.') = some j)
    (hcond : ¬(0 < name.data.length - 1 - j ∧ j ≠ 0)) :
    pySuffix name = "" := by
  simp only [pySuffix, hidx, if_neg hcond]

theorem lstrip_lower_empty : lstripDots (lowerString "") = "" := rfl

theorem lstrip_lower_dotpart (part : List Char) (hp : ∀ x ∈ part, x ≠ '.') :
    lstripDots (lowerString (String.mk ('.' :: part))) =
      String.mk (part.map Char.toLower) := by
  show String.mk (List.dropWhile (fun c => c == '.')
    (List.map Char.toLower ('.' :: part))) = _
  rw [List.map_cons, List.dropWhile_cons]
  have hdot : (Char.toLower '.' == '.') = true := by decide
  rw [hdot]
  simp only [ite_true]
  rw [dropWhileNone _ (by
    intro x hx
    obtain ⟨y, hy, rfl⟩ := List.mem_map.mp hx
    exact beq_eq_false_iff_ne.mpr (toLower_ne_dot (hp y hy)))]

theorem part_ne_dot {name : String} {j : Nat}
    (hidx : name.data.reverse.findIdx? (fun c => c == '.') = some j) :
    ∀ x ∈ (name.data.reverse.take j).reverse, x ≠ '.' := by
  intro x hx
  have hx2 := findIdx?_take_false name.data.reverse 0 j (by simpa using hidx) x
    (by simpa using List.mem_reverse.mp hx)
  intro hxe
  subst hxe
  simp at hx2

theorem specAmended_eval_none {crit name : String}
    (h : name.data.reverse.findIdx? (fun c => c == '.') = none) :
    specExtMatchesAmended crit name = false := by
  simp only [specExtMatchesAmended, h]

theorem specAmended_eval_some {crit name : String} {j : Nat}
    (hidx : name.data.reverse.findIdx? (fun c => c == '.') = some j) :
    specExtMatchesAmended crit name =
      if name.data.length - 1 - j = 0 then false
      else lowerString (String.mk (name.data.reverse.take j).reverse) == crit := by
  simp only [specExtMatchesAmended, hidx]

theorem passesExt_eq_amended (c name : String) (hc : c ≠ "") :
    passesExt (some c) name = specExtMatchesAmended c name := by
  have hempty : (("" : String) == c) = false :=
    beq_eq_false_iff_ne.mpr fun h => hc h.symm
  show (if c = "" then true
    else lstripDots (lowerString (pySuffix name)) == c) = specExtMatchesAmended c name
  rw [if_neg hc]
  cases hidx : name.data.reverse.findIdx? (fun c => c == '.') with
  | none =>
    rw [pySuffix_eval_none hidx, lstrip_lower_empty, specAmended_eval_none hidx]
    exact hempty
  | some j =>
    rw [specAmended_eval_some hidx]
    by_cases hcond : 0 < name.data.length - 1 - j ∧ j ≠ 0
    · rw [pySuffix_eval_some_ok hidx hcond,
        lstrip_lower_dotpart _ (part_ne_dot hidx),
        if_neg (by omega)]
      rfl
    · rw [pySuffix_eval_some_bad hidx hcond, lstrip_lower_empty]
      by_cases hz : name.data.length - 1 - j = 0
      · rw [if_pos hz]
        exact hempty
      · rw [if_neg hz]
        have hj : j = 0 := by
          by_contra hj
          exact hcond ⟨by omega, hj⟩
        subst hj
        simp only [List.take_zero, List.reverse_nil]
        rw [show lowerString (String.mk ([] : List Char)) = "" from rfl]

/-- A string of `k` dots (the degenerate extension criteria of C9). -/
def dotsStr (k : Nat) : String := String.mk (List.replicate k '.')

/-- C7: with a limit N > 0 the result is exactly the first N rows (all
rows when fewer exist, since `take` clamps); a limit ≤ 0 yields the empty
result via `max(0, limit)`; an absent limit passes the rows through
unchanged. -/
theorem spec_limit_truncation (rows : List MatchRow) (n : ℤ) :
    applyLimit none rows = rows ∧
    applyLimit (some n) rows = if n ≤ 0 then [] else rows.take n.toNat := by
  refine ⟨rfl, ?_⟩
  show rows.take (max 0 n).toNat = _
  by_cases h : n ≤ 0
  · rw [if_pos h, max_eq_left h]
    rfl
  · rw [if_neg h, max_eq_right (by omega)]

/-- C9: an empty substring criterion, an absent criterion, and an
extension criterion consisting of `k` dots (including `k = 0`, the empty
string) all normalize to an absent constraint: every candidate name
passes. -/
theorem spec_empty_criteria_pass (name : String) (k : Nat) :
    passesSub (subNormOf (some "")) name = true ∧
    passesSub (subNormOf none) name = true ∧
    passesExt (normalizeExt (some (dotsStr k))) name = true ∧
    passesExt (normalizeExt none) name = true := by
  refine ⟨by simp [subNormOf, passesSub], rfl, ?_, rfl⟩
  cases k with
  | zero => simp [dotsStr, normalizeExt, passesExt]
  | succ k =>
    have hne : dotsStr (k + 1) ≠ "" := by
      intro h
      have h2 := congrArg String.data h
      simp [dotsStr] at h2
    have hlow : lowerString (dotsStr (k + 1)) = dotsStr (k + 1) := by
      simp [lowerString, dotsStr]
    have hstrip : lstripDots (dotsStr (k + 1)) = String.mk [] := by
      simp only [lstripDots, dotsStr]
      rw [dropWhileAll]
      intro c hc
      rw [List.eq_of_mem_replicate hc]
      decide
    simp only [normalizeExt, if_neg hne, hlow, hstrip, passesExt]
    simp

/-- C6: sorting with key `size` is a permutation of the rows, descending
in `size_bytes`, and stable: the subsequence of rows at any fixed size is
unchanged. -/
theorem spec_sort_size_stable (rows : List MatchRow) :
    (sortRows "size" rows).Perm rows ∧
    List.Pairwise (fun a b => b.size_bytes ≤ a.size_bytes) (sortRows "size" rows) ∧
    ∀ s : Nat, (sortRows "size" rows).filter (fun r => r.size_bytes == s) =
      rows.filter (fun r => r.size_bytes == s) := by
  have hkey : lowerString "size" = "size" := by decide
  have hsort : sortRows "size" rows =
      sSort (fun a b => decide (b.size_bytes ≤ a.size_bytes)) rows := by
    simp [sortRows, hkey]
  have htot : ∀ a b : MatchRow, decide (b.size_bytes ≤ a.size_bytes) = true ∨
      decide (a.size_bytes ≤ b.size_bytes) = true := by
    intro a b
    rcases Nat.le_total b.size_bytes a.size_bytes with h | h
    · exact Or.inl (decide_eq_true h)
    · exact Or.inr (decide_eq_true h)
  have htrans : ∀ a b c : MatchRow, decide (b.size_bytes ≤ a.size_bytes) = true →
      decide (c.size_bytes ≤ b.size_bytes) = true →
      decide (c.size_bytes ≤ a.size_bytes) = true := by
    intro a b c h1 h2
    exact decide_eq_true (Nat.le_trans (of_decide_eq_true h2) (of_decide_eq_true h1))
  refine ⟨?_, ?_, ?_⟩
  · rw [hsort]
    exact sSort_perm _ rows
  · rw [hsort]
    exact (sSort_pairwise _ htot htrans rows).imp fun h => of_decide_eq_true h
  · intro s
    rw [hsort]
    apply sSort_filter
    intro x y hx hy
    have hxs : x.size_bytes = s := by simpa using hx
    have hys : y.size_bytes = s := by simpa using hy
    exact decide_eq_true (by rw [hxs, hys])

/-- C4 counterexample: the walk is seeded with the root unconditionally
(utils.py line 47), so when the walk root itself is named in the skip set
its files are still yielded — the claim as stated fails for the root
directory. -/
theorem spec_skip_set_prunes_cex :
    walk_files (FS.dir ".git" true [FS.file "a" none]) false [".git"] = [["a"]] := by
  simp [walk_files, walkLoop, scanChildren, startsDot]

/-- C4 as amended: for directories strictly below the walk root, descent
into a skip-set name never happens, so no yielded path has a skip-set
name among its intermediate components — no file beneath such a
directory is ever yielded, for both values of `ignore_hidden`. -/
theorem spec_skip_set_prunes (root : FS) (ih : Bool) (sk : List String)
    (y : List String) (hy : y ∈ walk_files root ih sk) :
    ∀ c ∈ y.dropLast, c ∉ sk := by
  apply walkLoop_skip_sound ih sk (stackMeasure [([], root)]) [([], root)] le_rfl ?_ y hy
  intro pe hpe c hc
  rw [List.mem_singleton] at hpe
  subst hpe
  simp at hc

/-- Witness for C4: in a concrete walk the intermediate component of the
single yielded path is not in the skip set. -/
theorem spec_skip_set_prunes_witness : "sub" ∉ (["skipme"] : List String) := by
  have hmem : ["sub", "f"] ∈ walk_files
      (FS.dir "r" true [FS.dir "sub" true [FS.file "f" none]]) false ["skipme"] := by
    simp [walk_files, walkLoop, scanChildren, startsDot]
  exact spec_skip_set_prunes _ false ["skipme"] ["sub", "f"] hmem "sub" (by simp)

/-- C10 counterexample: with `ignore_hidden = true`, a regular file whose
basename is in the skip set but starts with a dot (for example `.git` as
a plain file) is suppressed by the hidden-name rule (utils.py line 56)
and not yielded, so the claim does not hold for every walk. -/
theorem spec_skip_file_still_yielded_cex :
    walk_files (FS.dir "r" true [FS.file ".git" none]) true [".git"] = [] := by
  simp [walk_files, walkLoop, scanChildren, startsDot]

/-- C10 as amended: the skip set suppresses only descent into
directories; a regular file whose basename is in the skip set and which
is reachable (and not itself suppressed by the hidden-name filter) is
still yielded. -/
theorem spec_skip_file_still_yielded (root : FS) (ih : Bool) (sk : List String)
    (q : List String) (fn : String) (hfn : fn ∈ sk)
    (hr : ReachFile ih sk root q fn) :
    q ++ [fn] ∈ walk_files root ih sk := by
  have h := walkLoop_complete ih sk (stackMeasure [([], root)]) [([], root)] le_rfl
    [] root q fn (List.mem_singleton.mpr rfl) hr
  simpa using h

/-- Witness for C10: a file literally named `build` with `build` in the
skip set is yielded. -/
theorem spec_skip_file_still_yielded_witness :
    ["build"] ∈ walk_files (FS.dir "r" true [FS.file "build" none]) false ["build"] := by
  have h := spec_skip_file_still_yielded (FS.dir "r" true [FS.file "build" none])
    false ["build"] [] "build" (by simp)
    (ReachFile.here (List.mem_singleton.mpr rfl) (by simp))
  simpa using h

/-- C1 counterexample: a walk over a tree with exactly one unreadable
subdirectory. The sibling file is matched (one row) but the error counter
of `search` stays 0, not 1 as the claim requires: `_walk_files` swallows
the scandir failure with a bare `continue` (utils.py lines 68-69) and the
caller cannot observe it — `errors` counts only per-file stat failures
(cli.py lines 171-173). -/
theorem spec_walk_error_tolerance_cex :
    (searchCore (FS.dir "r" true
      [FS.dir "locked" false [FS.file "x" (some ⟨5, "t"⟩)],
       FS.file "a" (some ⟨3, "t"⟩)]) none none none none false []).2 = 0 ∧
    (searchCore (FS.dir "r" true
      [FS.dir "locked" false [FS.file "x" (some ⟨5, "t"⟩)],
       FS.file "a" (some ⟨3, "t"⟩)]) none none none none false []).1.length = 1 := by
  constructor <;>
    simp [searchCore, searchScan, walk_files, walkLoop, scanChildren, startsDot,
      statOf, findFS, fsName, passesSub, passesExt, subNormOf, normalizeExt,
      pathName, sizeOkMin, sizeOkMax]

/-- C1 as amended: the walk never aborts — every file reachable through
readable, non-hidden, non-skipped directories is yielded no matter what
other subtrees are unreadable — but the unreadable directory is skipped
silently: the error counter equals the number of yielded candidate paths
that pass the name filters and whose `stat` fails, and is not incremented
for unreadable directories. -/
theorem spec_walk_error_tolerance :
    (∀ (root : FS) (ih : Bool) (sk : List String) (q : List String) (fn : String),
      ReachFile ih sk root q fn → q ++ [fn] ∈ walk_files root ih sk) ∧
    (∀ (root : FS) (sn en : Option String) (mb xb : Option Nat)
      (ps : List (List String)),
      (searchScan root sn en mb xb ps).2 =
        (ps.filter (scanErrPred root sn en)).length) := by
  constructor
  · intro root ih sk q fn hr
    have h := walkLoop_complete ih sk (stackMeasure [([], root)]) [([], root)] le_rfl
      [] root q fn (List.mem_singleton.mpr rfl) hr
    simpa using h
  · exact searchScan_errors

/-- Witness for C1: a file next to an unreadable sibling directory is
still yielded. -/
theorem spec_walk_error_tolerance_witness :
    ["ok"] ∈ walk_files (FS.dir "r" true
      [FS.dir "bad" false [FS.file "x" none], FS.file "ok" none]) false [] := by
  have h := spec_walk_error_tolerance.1 (FS.dir "r" true
    [FS.dir "bad" false [FS.file "x" none], FS.file "ok" none]) false [] [] "ok"
    (ReachFile.here
      (List.mem_cons_of_mem _ (List.mem_singleton.mpr rfl)) (by simp))
  simpa using h

/-- C5 counterexample: the criterion `txt` against the candidate name
`.txt`. The claim's reading (name part after the last dot) matches, but
the code uses `pathlib`'s suffix, which is empty for a name whose only
dot is its first character (cli.py line 149), so the filter rejects it. -/
theorem spec_ext_filter_cex :
    passesExt (normalizeExt (some "txt")) ".txt" = false ∧
    specExtMatches "txt" ".txt" = true := by
  constructor <;> decide

/-- C5 as amended: for a supplied criterion (normalized to a nonempty
lowercase string), a candidate matches the extension filter iff the part
of its name after the last dot equals the criterion case-insensitively —
except that a name whose last dot is its first character is treated as
having no extension and never matches. -/
theorem spec_ext_filter (e name c : String)
    (hnorm : normalizeExt (some e) = some c) (hc : c ≠ "") :
    passesExt (normalizeExt (some e)) name = specExtMatchesAmended c name := by
  rw [hnorm]
  exact passesExt_eq_amended c name hc

/-- Witness for C5: criterion `TXT` (normalizing to `txt`) against
`a.txt`. -/
theorem spec_ext_filter_witness :
    passesExt (normalizeExt (some "TXT")) "a.txt" = specExtMatchesAmended "txt" "a.txt" :=
  spec_ext_filter "TXT" "a.txt" "txt" (by decide) (by decide)

/-- C8 counterexample: `" "` is a non-empty input string that does not
match `<number>[unit]`, yet `parse_size` strips it to emptiness and
returns `None` (utils.py lines 106-108) instead of failing with
`InvalidSizeFormat`. -/
theorem spec_parse_size_errors_cex :
    parse_size (some " ") = .ok none ∧ (" " : String) ≠ "" := by
  exact ⟨rfl, by decide⟩

/-- C8 as amended: for every input that is non-empty after stripping
whitespace, `parse_size` fails with `InvalidSizeFormat` when the stripped
text does not match the size regex, and with `UnknownSizeUnit` when it
matches with a unit suffix outside the table; in particular `abc` is an
invalid format and `5xq` an unknown unit. -/
theorem spec_parse_size_errors :
    (∀ s : String, stripChars s.data ≠ [] →
      sizeMatchL (stripChars s.data) = none →
      parse_size (some s) = .error .invalidSizeFormat) ∧
    (∀ (s : String) (num unitcs : List Char), stripChars s.data ≠ [] →
      sizeMatchL (stripChars s.data) = some (num, unitcs) → unitcs ≠ [] →
      multLookup (String.mk (unitcs.map Char.toLower)) = none →
      parse_size (some s) = .error .unknownSizeUnit) ∧
    parse_size (some "abc") = .error .invalidSizeFormat ∧
    parse_size (some "5xq") = .error .unknownSizeUnit := by
  refine ⟨parse_size_invalid, parse_size_unknown, rfl, rfl⟩

/-- Witness for C8: `zz` strips to itself, fails the regex, and is an
invalid format. -/
theorem spec_parse_size_errors_witness :
    parse_size (some "zz") = .error .invalidSizeFormat :=
  spec_parse_size_errors.1 "zz" (by decide) (by decide)

theorem pyFloat_three_halves : pyFloat ((3 : ℚ) / 2) = some (3 / 2) := by
  have hlog : Int.log 2 ((3 : ℚ) / 2) = 0 := by
    rw [Int.log_of_one_le_right _ (by norm_num)]
    rw [show ⌊(3 : ℚ) / 2⌋₊ = 1 from by
      rw [Nat.floor_eq_iff (by norm_num)]
      norm_num]
    norm_num
  have hr : rhe ((6755399441055744 : ℚ)) = 6755399441055744 := by
    have hfl : ⌊(6755399441055744 : ℚ)⌋ = 6755399441055744 := by norm_num
    simp only [rhe, hfl]
    norm_num
  simp only [pyFloat, if_neg (by norm_num : ¬((3 : ℚ) / 2 ≤ 0)), hlog]
  norm_num [hr, show ((52 : ℤ)).toNat = 52 from rfl]

theorem pyFloat_five : pyFloat ((5 : ℚ)) = some 5 := by
  have hlog : Int.log 2 ((5 : ℚ)) = 2 := by
    rw [Int.log_of_one_le_right _ (by norm_num)]
    rw [show ⌊(5 : ℚ)⌋₊ = 5 from by norm_num]
    simp [Nat.log]
  have hr : rhe ((5629499534213120 : ℚ)) = 5629499534213120 := by
    have hfl : ⌊(5629499534213120 : ℚ)⌋ = 5629499534213120 := by norm_num
    simp only [rhe, hfl]
    norm_num
  simp only [pyFloat, if_neg (by norm_num : ¬((5 : ℚ) ≤ 0)), hlog]
  norm_num [hr, show ((50 : ℤ)).toNat = 50 from rfl]

theorem pyFloat_almost_two :
    pyFloat ((19999999999999999 : ℚ) / 10 ^ 16) = some 2 := by
  have hlog : Int.log 2 ((19999999999999999 : ℚ) / 10 ^ 16) = 0 := by
    rw [Int.log_of_one_le_right _ (by norm_num)]
    rw [show ⌊(19999999999999999 : ℚ) / 10 ^ 16⌋₊ = 1 from by
      rw [Nat.floor_eq_iff (by norm_num)]
      norm_num]
    norm_num
  have hr : rhe ((1374389534719999931280523264 : ℚ) / 152587890625) =
      9007199254740992 := by
    have hfl : ⌊(1374389534719999931280523264 : ℚ) / 152587890625⌋ =
        9007199254740991 := by
      rw [Int.floor_eq_iff]
      norm_num
    simp only [rhe, hfl]
    norm_num
  simp only [pyFloat,
    if_neg (by norm_num : ¬((19999999999999999 : ℚ) / 10 ^ 16 ≤ 0)), hlog]
  norm_num [hr, show ((52 : ℤ)).toNat = 52 from rfl]

/-- C2 counterexample: the valid size string `1.9999999999999999` (no
unit, so raw bytes). Its exact value truncated toward zero is 1, but the
source computes `int(float("1.9999999999999999"))` and `float` rounds
2 - 10⁻¹⁶ — which lies within half an ulp of 2.0 — up to 2.0, so the
program returns 2, not 1: the claim's exact-arithmetic reading is false
of the code. -/
theorem spec_parse_size_values_cex :
    sizeStr [1] [9, 9, 9, 9, 9, 9, 9, 9, 9, 9, 9, 9, 9, 9, 9, 9] "" =
      "1.9999999999999999" ∧
    ⌊numVal [1] [9, 9, 9, 9, 9, 9, 9, 9, 9, 9, 9, 9, 9, 9, 9, 9]⌋ = 1 ∧
    parse_size (some "1.9999999999999999") = .ok (some 2) := by
  have hv : numVal [1] [9, 9, 9, 9, 9, 9, 9, 9, 9, 9, 9, 9, 9, 9, 9, 9] =
      19999999999999999 / 10 ^ 16 := by
    norm_num [numVal, digitsVal, fracValN]
  have hs : sizeStr [1] [9, 9, 9, 9, 9, 9, 9, 9, 9, 9, 9, 9, 9, 9, 9, 9] "" =
      "1.9999999999999999" := by decide
  refine ⟨hs, ?_, ?_⟩
  · rw [hv, Int.floor_eq_iff]
    norm_num
  · rw [← hs,
      parse_size_eval_bytes [1] [9, 9, 9, 9, 9, 9, 9, 9, 9, 9, 9, 9, 9, 9, 9, 9]
        (by decide) (by decide) (by decide),
      hv, pyFloat_almost_two]
    norm_num

/-- C2 as amended: `parse_size` computes through Python's `float`, which
first rounds the decimal to the nearest IEEE-754 binary64 value. For
every rendered size string `<digits>[.<digits>]<unit>` whose number is
exactly representable as a double (and, with a unit, whose product with
the multiplier stays below the double overflow threshold 2¹⁰²⁴), the
result is the number times the unit's binary multiplier truncated toward
zero (the value is nonnegative, so truncation is the floor); with no
unit the number is raw bytes; the table maps `b` to 1 and each further
step to 1024 times the previous, with decimal-letter and `iB` spellings
as synonyms; and `parse_size("1.5gb") = 1610612736`. For numbers not
exactly representable the pre-rounding can shift the result, as the
counterexample shows. -/
theorem spec_parse_size_values :
    (∀ (ds fs : List Nat) (u : String) (m : Nat),
      ds ≠ [] → (∀ d ∈ ds, d < 10) → (∀ d ∈ fs, d < 10) →
      (∀ c ∈ u.data, isAl c = true) →
      multLookup (String.mk (u.data.map Char.toLower)) = some m →
      pyFloat (numVal ds fs) = some (numVal ds fs) →
      numVal ds fs * (m : ℚ) < 2 ^ 1024 →
      parse_size (some (sizeStr ds fs u)) = .ok (some ⌊numVal ds fs * (m : ℚ)⌋)) ∧
    (∀ ds fs : List Nat, ds ≠ [] → (∀ d ∈ ds, d < 10) → (∀ d ∈ fs, d < 10) →
      pyFloat (numVal ds fs) = some (numVal ds fs) →
      parse_size (some (sizeStr ds fs "")) = .ok (some ⌊numVal ds fs⌋)) ∧
    (multLookup "b" = some 1 ∧
     multLookup "k" = some 1024 ∧ multLookup "kb" = some 1024 ∧
     multLookup "kib" = some 1024 ∧
     multLookup "m" = some (1024 ^ 2) ∧ multLookup "mb" = some (1024 ^ 2) ∧
     multLookup "mib" = some (1024 ^ 2) ∧
     multLookup "g" = some (1024 ^ 3) ∧ multLookup "gb" = some (1024 ^ 3) ∧
     multLookup "gib" = some (1024 ^ 3) ∧
     multLookup "t" = some (1024 ^ 4) ∧ multLookup "tb" = some (1024 ^ 4) ∧
     multLookup "tib" = some (1024 ^ 4) ∧
     multLookup "p" = some (1024 ^ 5) ∧ multLookup "pb" = some (1024 ^ 5) ∧
     multLookup "pib" = some (1024 ^ 5)) ∧
    parse_size (some "1.5gb") = .ok (some 1610612736) := by
  refine ⟨parse_size_roundtrip_unit, parse_size_roundtrip_bytes, by decide, ?_⟩
  have hv : numVal [1] [5] = 3 / 2 := by norm_num [numVal, digitsVal, fracValN]
  have hs : sizeStr [1] [5] "gb" = "1.5gb" := by decide
  have hrep : pyFloat (numVal [1] [5]) = some (numVal [1] [5]) := by
    rw [hv]
    exact pyFloat_three_halves
  have hov : numVal [1] [5] * ((1024 ^ 3 : ℕ) : ℚ) < 2 ^ 1024 := by
    rw [hv]
    norm_num
  have h := parse_size_roundtrip_unit [1] [5] "gb" (1024 ^ 3)
    (by decide) (by decide) (by decide) (by decide) (by decide) hrep hov
  rw [hs] at h
  rw [h, hv]
  norm_num

/-- Witness for C2: `5k` (5 is exactly representable) parses to 5120
bytes. -/
theorem spec_parse_size_values_witness :
    parse_size (some (sizeStr [5] [] "k")) = .ok (some 5120) := by
  have hv : numVal [5] [] = 5 := by norm_num [numVal, digitsVal, fracValN]
  have hrep : pyFloat (numVal [5] []) = some (numVal [5] []) := by
    rw [hv]
    exact pyFloat_five
  have hov : numVal [5] [] * ((1024 : ℕ) : ℚ) < 2 ^ 1024 := by
    rw [hv]
    norm_num
  have h := spec_parse_size_values.1 [5] [] "k" 1024
    (by decide) (by decide) (by decide) (by decide) (by decide) hrep hov
  rw [h, hv]
  norm_num

/-- C3: for every byte count, `human_size` selects the first unit (from B
upward, equivalently the largest scale reached by successive divisions by
1024) at which the scaled value drops below 1024, with PB as a ceiling
that never escalates further; a byte-scale value renders as a plain
integer, every larger unit as a value with exactly one digit after the
decimal point; and the four reference values render as stated. -/
theorem spec_human_size_format :
    (∀ n : Nat, ∃ k : Nat, k ≤ 5 ∧ (k = 5 ∨ n < 1024 ^ (k + 1)) ∧
      (k = 0 ∨ 1024 ^ k ≤ n) ∧
      ((k = 0 ∧ human_size n = Nat.repr n ++ "B") ∨
       (0 < k ∧
        human_size n = fmt1 ((n : ℚ) / 1024 ^ k) ++ unitNames.getD k "" ∧
        ∃ a b : ℤ, 0 ≤ b ∧ b < 10 ∧
          human_size n = (toString a ++ "." ++ toString b) ++ unitNames.getD k ""))) ∧
    human_size 0 = "0B" ∧ human_size 1024 = "1.0KB" ∧
    human_size 1536 = "1.5KB" ∧ human_size 1099511627776 = "1.0TB" := by
  constructor
  · intro n
    have hstep : ∀ (i : Nat) (u : String) (rest : List String),
        ¬ n < 1024 ^ (i + 1) → u ≠ "PB" →
        humanSizeGo ((n : ℚ) / 1024 ^ i) (u :: rest) =
          humanSizeGo ((n : ℚ) / 1024 ^ (i + 1)) rest := by
      intro i u rest h hu
      rw [humanSizeGo_step (fun hl => h ((natCast_div_pow_lt n i).mp hl)) hu,
        div_pow_succ]
    have hstopf : ∀ (i : Nat) (u : String) (rest : List String),
        (n < 1024 ^ (i + 1) ∨ u = "PB") → u ≠ "B" →
        humanSizeGo ((n : ℚ) / 1024 ^ i) (u :: rest) =
          fmt1 ((n : ℚ) / 1024 ^ i) ++ u := by
      intro i u rest h hu
      apply humanSizeGo_stop_fmt _ hu
      rcases h with h | h
      · exact Or.inl ((natCast_div_pow_lt n i).mpr h)
      · exact Or.inr h
    have hhs : human_size n =
        humanSizeGo ((n : ℚ) / 1024 ^ 0) ["B", "KB", "MB", "GB", "TB", "PB"] := by
      unfold human_size
      norm_num
    by_cases h1 : n < 1024
    · refine ⟨0, by norm_num, Or.inr (by simpa using h1), Or.inl rfl,
        Or.inl ⟨rfl, ?_⟩⟩
      have hlt : ((n : ℚ)) < 1024 := by exact_mod_cast h1
      unfold human_size
      rw [humanSizeGo_stop_B hlt, Int.floor_natCast]
      rfl
    · by_cases h2 : n < 1024 ^ 2
      · have hEq : human_size n = fmt1 ((n : ℚ) / 1024 ^ 1) ++ unitNames.getD 1 "" := by
          rw [hhs, hstep 0 "B" _ (by rw [pow_one]; exact h1) (by decide),
            hstopf 1 "KB" _ (Or.inl h2) (by decide)]
          rfl
        obtain ⟨a, b, hb0, hb10, hab⟩ := fmt1_shape ((n : ℚ) / 1024 ^ 1)
        exact ⟨1, by norm_num, Or.inr h2, Or.inr (by rw [pow_one]; omega),
          Or.inr ⟨by norm_num, hEq, a, b, hb0, hb10, by rw [hEq, hab]⟩⟩
      · by_cases h3 : n < 1024 ^ 3
        · have hEq : human_size n = fmt1 ((n : ℚ) / 1024 ^ 2) ++ unitNames.getD 2 "" := by
            rw [hhs, hstep 0 "B" _ (by rw [pow_one]; exact h1) (by decide),
              hstep 1 "KB" _ h2 (by decide),
              hstopf 2 "MB" _ (Or.inl h3) (by decide)]
            rfl
          obtain ⟨a, b, hb0, hb10, hab⟩ := fmt1_shape ((n : ℚ) / 1024 ^ 2)
          exact ⟨2, by norm_num, Or.inr h3, Or.inr (by omega),
            Or.inr ⟨by norm_num, hEq, a, b, hb0, hb10, by rw [hEq, hab]⟩⟩
        · by_cases h4 : n < 1024 ^ 4
          · have hEq : human_size n = fmt1 ((n : ℚ) / 1024 ^ 3) ++ unitNames.getD 3 "" := by
              rw [hhs, hstep 0 "B" _ (by rw [pow_one]; exact h1) (by decide),
                hstep 1 "KB" _ h2 (by decide), hstep 2 "MB" _ h3 (by decide),
                hstopf 3 "GB" _ (Or.inl h4) (by decide)]
              rfl
            obtain ⟨a, b, hb0, hb10, hab⟩ := fmt1_shape ((n : ℚ) / 1024 ^ 3)
            exact ⟨3, by norm_num, Or.inr h4, Or.inr (by omega),
              Or.inr ⟨by norm_num, hEq, a, b, hb0, hb10, by rw [hEq, hab]⟩⟩
          · by_cases h5 : n < 1024 ^ 5
            · have hEq : human_size n =
                  fmt1 ((n : ℚ) / 1024 ^ 4) ++ unitNames.getD 4 "" := by
                rw [hhs, hstep 0 "B" _ (by rw [pow_one]; exact h1) (by decide),
                  hstep 1 "KB" _ h2 (by decide), hstep 2 "MB" _ h3 (by decide),
                  hstep 3 "GB" _ h4 (by decide),
                  hstopf 4 "TB" _ (Or.inl h5) (by decide)]
                rfl
              obtain ⟨a, b, hb0, hb10, hab⟩ := fmt1_shape ((n : ℚ) / 1024 ^ 4)
              exact ⟨4, by norm_num, Or.inr h5, Or.inr (by omega),
                Or.inr ⟨by norm_num, hEq, a, b, hb0, hb10, by rw [hEq, hab]⟩⟩
            · have hEq : human_size n =
                  fmt1 ((n : ℚ) / 1024 ^ 5) ++ unitNames.getD 5 "" := by
                rw [hhs, hstep 0 "B" _ (by rw [pow_one]; exact h1) (by decide),
                  hstep 1 "KB" _ h2 (by decide), hstep 2 "MB" _ h3 (by decide),
                  hstep 3 "GB" _ h4 (by decide), hstep 4 "TB" _ h5 (by decide),
                  hstopf 5 "PB" _ (Or.inr rfl) (by decide)]
                rfl
              obtain ⟨a, b, hb0, hb10, hab⟩ := fmt1_shape ((n : ℚ) / 1024 ^ 5)
              exact ⟨5, le_rfl, Or.inl rfl, Or.inr (by omega),
                Or.inr ⟨by norm_num, hEq, a, b, hb0, hb10, by rw [hEq, hab]⟩⟩
  · refine ⟨?_, ?_, ?_, ?_⟩
    · show humanSizeGo ((0 : Nat) : ℚ) ["B", "KB", "MB", "GB", "TB", "PB"] = "0B"
      rw [humanSizeGo_stop_B (by norm_num)]
      have hf : ⌊((0 : Nat) : ℚ)⌋ = 0 := by norm_num
      rw [hf]
      rfl
    · show humanSizeGo ((1024 : Nat) : ℚ) ["B", "KB", "MB", "GB", "TB", "PB"] = "1.0KB"
      rw [humanSizeGo_step (by norm_num) (by decide),
        humanSizeGo_stop_fmt (Or.inl (by norm_num)) (by decide)]
      have hq : ((1024 : Nat) : ℚ) / 1024 = 1 := by norm_num
      rw [hq]
      have ht : rhe ((1 : ℚ) * 10) = 10 := by norm_num [rhe]
      unfold fmt1
      rw [ht]
      decide
    · show humanSizeGo ((1536 : Nat) : ℚ) ["B", "KB", "MB", "GB", "TB", "PB"] = "1.5KB"
      rw [humanSizeGo_step (by norm_num) (by decide),
        humanSizeGo_stop_fmt (Or.inl (by norm_num)) (by decide)]
      have hq : ((1536 : Nat) : ℚ) / 1024 = 3 / 2 := by norm_num
      rw [hq]
      have ht : rhe ((3 / 2 : ℚ) * 10) = 15 := by norm_num [rhe]
      unfold fmt1
      rw [ht]
      decide
    · show humanSizeGo ((1099511627776 : Nat) : ℚ) ["B", "KB", "MB", "GB", "TB", "PB"]
        = "1.0TB"
      rw [humanSizeGo_step (by norm_num) (by decide),
        humanSizeGo_step (by norm_num) (by decide),
        humanSizeGo_step (by norm_num) (by decide),
        humanSizeGo_step (by norm_num) (by decide),
        humanSizeGo_stop_fmt (Or.inl (by norm_num)) (by decide)]
      have hq : ((1099511627776 : Nat) : ℚ) / 1024 / 1024 / 1024 / 1024 = 1 := by
        norm_num
      rw [hq]
      have ht : rhe ((1 : ℚ) * 10) = 10 := by norm_num [rhe]
      unfold fmt1
      rw [ht]
      decide
